import Mathlib

/-!
# Document scanner: corner ordering and quadrilateral selection

A shallow embedding of the geometric core of `src/main.cpp`:

* `reorder` (lines 24-42), with the two standard-library scans it relies on
  (`std::min_element`, `std::max_element`);
* the contour selection loop of `main` (lines 84-114) and the branch that
  follows it (lines 117-161).

`cv::Point` holds `int`s.  The keys `x + y` and `y - x` of `reorder` are given
twice: in mathematical integers (`Point.sum`, `Point.diff`, `reorder`), which
is what the program computes as long as no key overflows, and in 32-bit
two-complement arithmetic (`Point.sum32`, `Point.diff32`, `reorder32`), which
is what it computes in general.  `reorder32_eq_reorder` relates the two.
Areas are rationals.
-/

namespace DocScanner

/-! ## Data model -/

/-- Integer pixel coordinate, as `cv::Point`. -/
structure Point where
  x : Int
  y : Int
deriving DecidableEq, Repr

/-- The entry pushed to `sumPoints` for a point, `pt.x + pt.y`, taken in
mathematical integers: the value the program computes when the addition does
not overflow `int`. -/
def Point.sum (p : Point) : Int := p.x + p.y

/-- The entry pushed to `diffPoints` for a point, `pt.y - pt.x`, taken in
mathematical integers: the value the program computes when the subtraction
does not overflow `int`. -/
def Point.diff (p : Point) : Int := p.y - p.x

/-- Reduction of a mathematical integer to the 32-bit two-complement `int`
that represents it: the result of an `int` operation whose exact value is
`z`. -/
def wrap32 (z : Int) : Int := (z + 2147483648) % 4294967296 - 2147483648

/-- The entry pushed to `sumPoints`, `pt.x + pt.y`, as a 32-bit `int`. -/
def Point.sum32 (p : Point) : Int := wrap32 (p.x + p.y)

/-- The entry pushed to `diffPoints`, `pt.y - pt.x`, as a 32-bit `int`. -/
def Point.diff32 (p : Point) : Int := wrap32 (p.y - p.x)

/-- Both coordinates are values of a 32-bit `int`. -/
def Point.IsInt32 (p : Point) : Prop :=
  (-2147483648 ≤ p.x ∧ p.x ≤ 2147483647) ∧ (-2147483648 ≤ p.y ∧ p.y ≤ 2147483647)

instance (p : Point) : Decidable p.IsInt32 := by
  unfold Point.IsInt32; infer_instance

/-- Neither `pt.x + pt.y` nor `pt.y - pt.x` overflows a 32-bit `int`. -/
def Point.NoOverflow (p : Point) : Prop :=
  (-2147483648 ≤ p.x + p.y ∧ p.x + p.y ≤ 2147483647) ∧
  (-2147483648 ≤ p.y - p.x ∧ p.y - p.x ≤ 2147483647)

instance (p : Point) : Decidable p.NoOverflow := by
  unfold Point.NoOverflow; infer_instance

/-! ## `std::min_element` / `std::max_element` -/

/-- Loop of `std::min_element` after the first element: `i` is the position of
the element examined next, `best` the position of the smallest element so far
and `bestVal` its value.  The candidate changes only on a strictly smaller
value. -/
def minElementLoop : List Int → Nat → Int → Nat → Nat
  | [], _, _, best => best
  | v :: rest, i, bestVal, best =>
    if v < bestVal then minElementLoop rest (i + 1) v i
    else minElementLoop rest (i + 1) bestVal best

/-- Position returned by `min_element(v.begin(), v.end()) - v.begin()`: the
first smallest element; on an empty range the end iterator, i.e. `0`. -/
def minElement : List Int → Nat
  | [] => 0
  | v :: rest => minElementLoop rest 1 v 0

/-- Loop of `std::max_element` after the first element.  The candidate changes
only on a strictly larger value. -/
def maxElementLoop : List Int → Nat → Int → Nat → Nat
  | [], _, _, best => best
  | v :: rest, i, bestVal, best =>
    if bestVal < v then maxElementLoop rest (i + 1) v i
    else maxElementLoop rest (i + 1) bestVal best

/-- Position returned by `max_element(v.begin(), v.end()) - v.begin()`: the
first largest element; on an empty range `0`. -/
def maxElement : List Int → Nat
  | [] => 0
  | v :: rest => maxElementLoop rest 1 v 0

/-! ## `reorder` -/

/-- The function `reorder` of `src/main.cpp`, with `pt.x + pt.y` and
`pt.y - pt.x` in mathematical integers (no `int` overflow).  `sumPoints` and
`diffPoints` are built by one pass over `points`; the four slots of
`newPoints` are then read from `points` at the positions given by the scans.
Reading `points[i]` out of range (which only happens for an empty input) is
undefined in the source and is `none` here.  The result lists
`newPoints[0..3]`. -/
def reorder (points : List Point) : Option (List Point) :=
  let sumPoints := points.map Point.sum
  let diffPoints := points.map Point.diff
  match points[minElement sumPoints]?, points[maxElement sumPoints]?,
        points[minElement diffPoints]?, points[maxElement diffPoints]? with
  | some n0, some n2, some n1, some n3 => some [n0, n1, n2, n3]
  | _, _, _, _ => none

/-- The function `reorder` of `src/main.cpp` with `pt.x + pt.y` and
`pt.y - pt.x` computed as 32-bit `int`s; otherwise as `reorder`. -/
def reorder32 (points : List Point) : Option (List Point) :=
  let sumPoints := points.map Point.sum32
  let diffPoints := points.map Point.diff32
  match points[minElement sumPoints]?, points[maxElement sumPoints]?,
        points[minElement diffPoints]?, points[maxElement diffPoints]? with
  | some n0, some n2, some n1, some n3 => some [n0, n1, n2, n3]
  | _, _, _, _ => none

/-! ## Contour selection loop of `main` -/

/-- What the selection loop reads from one contour `cnt`: `contourArea(cnt)`,
`contourArea(hull)` for its convex hull, and the four entries of
`rect_points` (the corners of `minAreaRect(hull)`) as they are pushed into
`biggest`, i.e. already converted to integer points. -/
structure Contour where
  rawArea : ℚ
  hullArea : ℚ
  rect0 : Point
  rect1 : Point
  rect2 : Point
  rect3 : Point
deriving DecidableEq

/-- Contents of `biggest` after `biggest.clear()` and the four `push_back`s. -/
def Contour.rectPoints (cnt : Contour) : List Point :=
  [cnt.rect0, cnt.rect1, cnt.rect2, cnt.rect3]

/-- The two variables the loop updates: `biggest` and `maxArea`. -/
structure Selection where
  biggest : List Point
  maxArea : ℚ
deriving DecidableEq

/-- State before the loop: `vector<Point> biggest; double maxArea = 0;`. -/
def Selection.init : Selection := ⟨[], 0⟩

/-- One iteration of the loop body (lines 89-113). -/
def selectStep (s : Selection) (cnt : Contour) : Selection :=
  if cnt.rawArea > 5000 then
    if cnt.hullArea > s.maxArea then ⟨cnt.rectPoints, cnt.hullArea⟩
    else s
  else s

/-- The loop `for (const auto& cnt : contours)` run from a given state. -/
def selectFrom (s : Selection) (contours : List Contour) : Selection :=
  contours.foldl selectStep s

/-- The whole selection loop (lines 84-114). -/
def selectLoop (contours : List Contour) : Selection :=
  selectFrom Selection.init contours

/-- Which branch of `if (!biggest.empty())` is taken after the loop: the
rectification branch, which first calls `reorder(biggest)`, or the
"No document found" branch, which calls nothing. -/
inductive Outcome where
  | rectified (src : Option (List Point))
  | noDocumentFound
deriving DecidableEq

/-- The test at line 117 and the call at line 119. -/
def afterSelection (s : Selection) : Outcome :=
  if s.biggest.isEmpty then Outcome.noDocumentFound
  else Outcome.rectified (reorder s.biggest)

/-! ## Geometric predicates used to state the claims -/

/-- Twice the signed area of the triangle `a b c`; zero exactly when the three
points are collinear. -/
def cross (a b c : Point) : Int :=
  (b.x - a.x) * (c.y - a.y) - (b.y - a.y) * (c.x - a.x)

/-- No three points of the list (at three different positions) are collinear. -/
def NoThreeCollinear : List Point → Prop
  | [] => True
  | a :: rest => rest.Pairwise (fun b c => cross a b c ≠ 0) ∧ NoThreeCollinear rest

/-- Decision procedure for `NoThreeCollinear`. -/
def NoThreeCollinear.dec : (l : List Point) → Decidable (NoThreeCollinear l)
  | [] => isTrue trivial
  | a :: rest =>
    match (inferInstance : Decidable (rest.Pairwise (fun b c => cross a b c ≠ 0))),
        NoThreeCollinear.dec rest with
    | isTrue h1, isTrue h2 => isTrue ⟨h1, h2⟩
    | isFalse h1, _ => isFalse (fun h => h1 h.1)
    | _, isFalse h2 => isFalse (fun h => h2 h.2)

instance (l : List Point) : Decidable (NoThreeCollinear l) := NoThreeCollinear.dec l

/-- The segment from `p` to `q` is parallel to the direction `(dx, dy)`. -/
def parallelTo (p q : Point) (dx dy : Int) : Prop :=
  (q.x - p.x) * dy - (q.y - p.y) * dx = 0

instance (p q : Point) (dx dy : Int) : Decidable (parallelTo p q dx dy) := by
  unfold parallelTo; infer_instance

/-- The points `a b c d`, in this cyclic order, are the corners of a
non-degenerate rectangle: a parallelogram (`a + c = b + d`) with equal
diagonals and non-zero sides. -/
def IsRectangle (a b c d : Point) : Prop :=
  a.x + c.x = b.x + d.x ∧ a.y + c.y = b.y + d.y ∧
  (c.x - a.x) ^ 2 + (c.y - a.y) ^ 2 = (d.x - b.x) ^ 2 + (d.y - b.y) ^ 2 ∧
  a ≠ b ∧ b ≠ c ∧ c ≠ d ∧ d ≠ a

instance (a b c d : Point) : Decidable (IsRectangle a b c d) := by
  unfold IsRectangle; infer_instance

/-- None of the four sides of `a b c d` is parallel to `(1, 1)` or `(1, -1)`. -/
def NoDiagonalSide (a b c d : Point) : Prop :=
  (¬ parallelTo a b 1 1 ∧ ¬ parallelTo a b 1 (-1)) ∧
  (¬ parallelTo b c 1 1 ∧ ¬ parallelTo b c 1 (-1)) ∧
  (¬ parallelTo c d 1 1 ∧ ¬ parallelTo c d 1 (-1)) ∧
  (¬ parallelTo d a 1 1 ∧ ¬ parallelTo d a 1 (-1))

instance (a b c d : Point) : Decidable (NoDiagonalSide a b c d) := by
  unfold NoDiagonalSide; infer_instance

/-! ## Perspective transform -/

/-- Modelled from the spec: the 3x3 projective transform of section 4.5
(`getPerspectiveTransform` is a library routine whose code is not in
`src/`), as a matrix of rationals. -/
structure Homography where
  h11 : ℚ
  h12 : ℚ
  h13 : ℚ
  h21 : ℚ
  h22 : ℚ
  h23 : ℚ
  h31 : ℚ
  h32 : ℚ
  h33 : ℚ

/-- Modelled from the spec: the transform sends the source point `p` to the
destination `(u, v)`, i.e. `H (x, y, 1) = w (u, v, 1)` in homogeneous
coordinates with `w ≠ 0`. -/
def Homography.maps (H : Homography) (p : Point) (u v : ℚ) : Prop :=
  H.h31 * p.x + H.h32 * p.y + H.h33 ≠ 0 ∧
  H.h11 * p.x + H.h12 * p.y + H.h13 = u * (H.h31 * p.x + H.h32 * p.y + H.h33) ∧
  H.h21 * p.x + H.h22 * p.y + H.h23 = v * (H.h31 * p.x + H.h32 * p.y + H.h33)

instance (H : Homography) (p : Point) (u v : ℚ) : Decidable (H.maps p u v) := by
  unfold Homography.maps; infer_instance

/-- The destination corners `dst` of `main` (lines 121-127): `w = 1000`,
`h = 1414`. -/
def dstCorners : List (ℚ × ℚ) := [(0, 0), (1000, 0), (1000, 1414), (0, 1414)]

/-- Round trip: the transform sends `src[i]` to `dst[i]` for every `i`. -/
def Homography.roundTrip (H : Homography) (src : List Point) : Prop :=
  List.Forall₂ (fun p d => H.maps p d.1 d.2) src dstCorners

/-! ## Sample inputs -/

/-- Corners of a square of area 20000 standing on a corner: left, top, right,
bottom. -/
def diamond : List Point := [⟨0, 100⟩, ⟨100, 0⟩, ⟨200, 100⟩, ⟨100, 200⟩]

/-- The same four corners with the first two exchanged. -/
def diamondSwapped : List Point := [⟨100, 0⟩, ⟨0, 100⟩, ⟨200, 100⟩, ⟨100, 200⟩]

/-- A contour that is the square `diamond`: it is its own convex hull and its
own minimum-area rectangle, of area 20000. -/
def diamondContour : Contour :=
  ⟨20000, 20000, ⟨0, 100⟩, ⟨100, 0⟩, ⟨200, 100⟩, ⟨100, 200⟩⟩

/-- Corners of the axis-parallel square of side `2^30` at the origin, in
cyclic order.  All coordinates are values of an `int`; the sum of the
coordinates of the third corner is `2^31`. -/
def bigSquare : List Point :=
  [⟨0, 0⟩, ⟨1073741824, 0⟩, ⟨1073741824, 1073741824⟩, ⟨0, 1073741824⟩]

/-! ## Enumeration of the orderings of a list -/

/-- All lists obtained by inserting `a` at one position of the list. -/
def insertions (a : Point) : List Point → List (List Point)
  | [] => [[a]]
  | b :: l => (a :: b :: l) :: (insertions a l).map (fun t => b :: t)

/-- All orderings of a list of points. -/
def orderings : List Point → List (List Point)
  | [] => [[]]
  | a :: l => ((orderings l).map (insertions a)).flatten

/-! ## Sample contours -/

/-- A contour of raw and hull area 6000 with rectangle `(0,0) (100,0) (100,60) (0,60)`. -/
def contour6000 : Contour := ⟨6000, 6000, ⟨0, 0⟩, ⟨100, 0⟩, ⟨100, 60⟩, ⟨0, 60⟩⟩

/-- A contour of raw and hull area 12000 with rectangle `(200,0) (320,0) (320,100) (200,100)`. -/
def contour12000 : Contour := ⟨12000, 12000, ⟨200, 0⟩, ⟨320, 0⟩, ⟨320, 100⟩, ⟨200, 100⟩⟩

/-- A second contour of hull area 12000, elsewhere in the frame:
rectangle `(0,200) (100,200) (100,320) (0,320)`. -/
def contour12000b : Contour := ⟨11000, 12000, ⟨0, 200⟩, ⟨100, 200⟩, ⟨100, 320⟩, ⟨0, 320⟩⟩

/-- A contour whose raw area is exactly the threshold 5000, with a large hull. -/
def contour5000 : Contour := ⟨5000, 90000, ⟨0, 0⟩, ⟨300, 0⟩, ⟨300, 300⟩, ⟨0, 300⟩⟩

/-! ## Scan lemmas -/

theorem minElementLoop_spec (rest : List Int) :
    ∀ (pre : List Int) (best : Nat) (bestVal : Int),
      pre[best]? = some bestVal →
      (∀ v ∈ pre, bestVal ≤ v) →
      ∃ w, (pre ++ rest)[minElementLoop rest pre.length bestVal best]? = some w ∧
        ∀ v ∈ pre ++ rest, w ≤ v := by
  induction rest with
  | nil =>
    intro pre best bestVal hb hle
    exact ⟨bestVal, by simpa [minElementLoop] using hb, by simpa using hle⟩
  | cons a rest ih =>
    intro pre best bestVal hb hle
    have hlen : (pre ++ [a]).length = pre.length + 1 := by simp
    have happ : pre ++ a :: rest = (pre ++ [a]) ++ rest := by simp
    unfold minElementLoop
    split
    · rename_i hlt
      have h1 : (pre ++ [a])[pre.length]? = some a := by simp
      have h2 : ∀ v ∈ pre ++ [a], a ≤ v := by
        intro v hv
        rcases List.mem_append.mp hv with hv | hv
        · exact le_of_lt (lt_of_lt_of_le hlt (hle v hv))
        · simp at hv; omega
      have := ih (pre ++ [a]) pre.length a h1 h2
      rw [hlen] at this
      rw [happ]; exact this
    · rename_i hlt
      have hbl : best < pre.length := by
        rcases List.getElem?_eq_some_iff.mp hb with ⟨h, _⟩
        exact h
      have h1 : (pre ++ [a])[best]? = some bestVal := by
        rw [List.getElem?_append_left hbl]; exact hb
      have h2 : ∀ v ∈ pre ++ [a], bestVal ≤ v := by
        intro v hv
        rcases List.mem_append.mp hv with hv | hv
        · exact hle v hv
        · simp at hv; omega
      have := ih (pre ++ [a]) best bestVal h1 h2
      rw [hlen] at this
      rw [happ]; exact this

theorem maxElementLoop_spec (rest : List Int) :
    ∀ (pre : List Int) (best : Nat) (bestVal : Int),
      pre[best]? = some bestVal →
      (∀ v ∈ pre, v ≤ bestVal) →
      ∃ w, (pre ++ rest)[maxElementLoop rest pre.length bestVal best]? = some w ∧
        ∀ v ∈ pre ++ rest, v ≤ w := by
  induction rest with
  | nil =>
    intro pre best bestVal hb hle
    exact ⟨bestVal, by simpa [maxElementLoop] using hb, by simpa using hle⟩
  | cons a rest ih =>
    intro pre best bestVal hb hle
    have hlen : (pre ++ [a]).length = pre.length + 1 := by simp
    have happ : pre ++ a :: rest = (pre ++ [a]) ++ rest := by simp
    unfold maxElementLoop
    split
    · rename_i hlt
      have h1 : (pre ++ [a])[pre.length]? = some a := by simp
      have h2 : ∀ v ∈ pre ++ [a], v ≤ a := by
        intro v hv
        rcases List.mem_append.mp hv with hv | hv
        · exact le_of_lt (lt_of_le_of_lt (hle v hv) hlt)
        · simp at hv; omega
      have := ih (pre ++ [a]) pre.length a h1 h2
      rw [hlen] at this
      rw [happ]; exact this
    · rename_i hlt
      have hbl : best < pre.length := by
        rcases List.getElem?_eq_some_iff.mp hb with ⟨h, _⟩
        exact h
      have h1 : (pre ++ [a])[best]? = some bestVal := by
        rw [List.getElem?_append_left hbl]; exact hb
      have h2 : ∀ v ∈ pre ++ [a], v ≤ bestVal := by
        intro v hv
        rcases List.mem_append.mp hv with hv | hv
        · exact hle v hv
        · simp at hv; omega
      have := ih (pre ++ [a]) best bestVal h1 h2
      rw [hlen] at this
      rw [happ]; exact this

theorem minElement_spec (l : List Int) (hl : l ≠ []) :
    ∃ w, l[minElement l]? = some w ∧ ∀ v ∈ l, w ≤ v := by
  cases l with
  | nil => exact absurd rfl hl
  | cons a rest =>
    have := minElementLoop_spec rest [a] 0 a (by simp) (by simp)
    simpa [minElement] using this

theorem maxElement_spec (l : List Int) (hl : l ≠ []) :
    ∃ w, l[maxElement l]? = some w ∧ ∀ v ∈ l, v ≤ w := by
  cases l with
  | nil => exact absurd rfl hl
  | cons a rest =>
    have := maxElementLoop_spec rest [a] 0 a (by simp) (by simp)
    simpa [maxElement] using this

/-- The point read at the position of the first minimum of `f` over `points`
is a point of the input that minimises `f`. -/
theorem argmin_point (f : Point → Int) (points : List Point) (hl : points ≠ []) :
    ∃ p, points[minElement (points.map f)]? = some p ∧ p ∈ points ∧
      ∀ q ∈ points, f p ≤ f q := by
  obtain ⟨w, hw, hmin⟩ := minElement_spec (points.map f) (by simpa using hl)
  rw [List.getElem?_map] at hw
  cases hp : points[minElement (points.map f)]? with
  | none => rw [hp] at hw; simp at hw
  | some p =>
    rw [hp] at hw
    simp at hw
    refine ⟨p, rfl, List.getElem?_mem hp, ?_⟩
    intro q hq
    rw [hw]
    exact hmin (f q) (List.mem_map_of_mem f hq)

/-- The point read at the position of the first maximum of `f` over `points`
is a point of the input that maximises `f`. -/
theorem argmax_point (f : Point → Int) (points : List Point) (hl : points ≠ []) :
    ∃ p, points[maxElement (points.map f)]? = some p ∧ p ∈ points ∧
      ∀ q ∈ points, f q ≤ f p := by
  obtain ⟨w, hw, hmax⟩ := maxElement_spec (points.map f) (by simpa using hl)
  rw [List.getElem?_map] at hw
  cases hp : points[maxElement (points.map f)]? with
  | none => rw [hp] at hw; simp at hw
  | some p =>
    rw [hp] at hw
    simp at hw
    refine ⟨p, rfl, List.getElem?_mem hp, ?_⟩
    intro q hq
    rw [hw]
    exact hmax (f q) (List.mem_map_of_mem f hq)

/-- On a non-empty input `reorder` returns four input points, each extremal
for its key. -/
theorem reorder_spec (points : List Point) (hl : points ≠ []) :
    ∃ tl tr br bl, reorder points = some [tl, tr, br, bl] ∧
      (tl ∈ points ∧ tr ∈ points ∧ br ∈ points ∧ bl ∈ points) ∧
      ∀ q ∈ points, tl.sum ≤ q.sum ∧ q.sum ≤ br.sum ∧
        tr.diff ≤ q.diff ∧ q.diff ≤ bl.diff := by
  obtain ⟨tl, h0, m0, b0⟩ := argmin_point Point.sum points hl
  obtain ⟨br, h2, m2, b2⟩ := argmax_point Point.sum points hl
  obtain ⟨tr, h1, m1, b1⟩ := argmin_point Point.diff points hl
  obtain ⟨bl, h3, m3, b3⟩ := argmax_point Point.diff points hl
  refine ⟨tl, tr, br, bl, ?_, ⟨m0, m1, m2, m3⟩, fun q hq => ⟨b0 q hq, b2 q hq, b1 q hq, b3 q hq⟩⟩
  simp only [reorder, h0, h1, h2, h3]

/-- An in-range value is its own 32-bit representation. -/
theorem wrap32_of_inRange (z : Int) (h : -2147483648 ≤ z ∧ z ≤ 2147483647) :
    wrap32 z = z := by
  unfold wrap32; omega

/-- Without overflow the 32-bit keys of every point are the exact ones, so the
32-bit `reorder32` and the exact `reorder` return the same list. -/
theorem reorder32_eq_reorder (l : List Point) (hno : ∀ q ∈ l, q.NoOverflow) :
    reorder32 l = reorder l := by
  have hs : l.map Point.sum32 = l.map Point.sum :=
    List.map_congr_left (fun q hq => wrap32_of_inRange _ (hno q hq).1)
  have hd : l.map Point.diff32 = l.map Point.diff :=
    List.map_congr_left (fun q hq => wrap32_of_inRange _ (hno q hq).2)
  simp only [reorder32, reorder, hs, hd]

/-- The extremal property of the output, for the 32-bit `reorder32` on inputs
whose keys do not overflow. -/
theorem reorder32_spec (points : List Point) (hl : points ≠ [])
    (hno : ∀ q ∈ points, q.NoOverflow) :
    ∃ tl tr br bl, reorder32 points = some [tl, tr, br, bl] ∧
      (tl ∈ points ∧ tr ∈ points ∧ br ∈ points ∧ bl ∈ points) ∧
      ∀ q ∈ points, tl.sum ≤ q.sum ∧ q.sum ≤ br.sum ∧
        tr.diff ≤ q.diff ∧ q.diff ≤ bl.diff := by
  rw [reorder32_eq_reorder points hno]
  exact reorder_spec points hl

/-- C1. For every list of exactly four integer points, `reorder` returns
`[TL, TR, BR, BL]` where `TL` has the least and `BR` the greatest `x + y`, and
`TR` has the least and `BL` the greatest `y - x`, among all points of the
input. -/
theorem reorder_extremal (p : List Point) (h4 : p.length = 4) :
    ∃ tl tr br bl, reorder p = some [tl, tr, br, bl] ∧
      ∀ q ∈ p, tl.x + tl.y ≤ q.x + q.y ∧ br.x + br.y ≥ q.x + q.y ∧
        tr.y - tr.x ≤ q.y - q.x ∧ bl.y - bl.x ≥ q.y - q.x := by
  have hl : p ≠ [] := by
    intro h; rw [h] at h4; simp at h4
  obtain ⟨tl, tr, br, bl, hr, _, hb⟩ := reorder_spec p hl
  refine ⟨tl, tr, br, bl, hr, ?_⟩
  intro q hq
  have := hb q hq
  simpa [Point.sum, Point.diff] using this

theorem reorder_extremal_witness :
    ∃ tl tr br bl,
      reorder [⟨40, 10⟩, ⟨300, 20⟩, ⟨310, 420⟩, ⟨30, 400⟩] = some [tl, tr, br, bl] ∧
      ∀ q ∈ [(⟨40, 10⟩ : Point), ⟨300, 20⟩, ⟨310, 420⟩, ⟨30, 400⟩],
        tl.x + tl.y ≤ q.x + q.y ∧ br.x + br.y ≥ q.x + q.y ∧
        tr.y - tr.x ≤ q.y - q.x ∧ bl.y - bl.x ≥ q.y - q.x :=
  reorder_extremal [⟨40, 10⟩, ⟨300, 20⟩, ⟨310, 420⟩, ⟨30, 400⟩] (by decide)

theorem mem_insertions (a : Point) (l1 l2 : List Point) :
    l1 ++ a :: l2 ∈ insertions a (l1 ++ l2) := by
  induction l1 with
  | nil => cases l2 <;> simp [insertions]
  | cons b l1 ih =>
    simp only [List.cons_append, insertions, List.mem_cons, List.mem_map]
    exact Or.inr ⟨_, ih, rfl⟩

/-- Every permutation of a list is one of its enumerated orderings. -/
theorem mem_orderings (l2 : List Point) :
    ∀ l1 : List Point, l1.Perm l2 → l1 ∈ orderings l2 := by
  induction l2 with
  | nil =>
    intro l1 h
    rw [List.perm_nil.mp h]
    simp [orderings]
  | cons a l2 ih =>
    intro l1 h
    have ha : a ∈ l1 := h.mem_iff.mpr (List.mem_cons_self _ _)
    obtain ⟨s, t, rfl⟩ := List.append_of_mem ha
    have hst : (s ++ t).Perm l2 := (List.perm_middle.symm.trans h).cons_inv
    simp only [orderings, List.mem_flatten, List.mem_map]
    exact ⟨insertions a (s ++ t), ⟨s ++ t, ih _ hst, rfl⟩, mem_insertions a s t⟩

/-- In whatever order the corners of `diamond` are listed, `reorder` returns a
list with a repeated point. -/
theorem reorder_diamond_orderings :
    ∀ l ∈ orderings diamond, ∀ out ∈ reorder l, ¬ out.Nodup := by
  decide

/-- On every ordering of the corners of `diamond` the 32-bit `reorder32`
returns what `reorder` returns: no key overflows. -/
theorem reorder32_diamond_orderings :
    ∀ l ∈ orderings diamond, reorder32 l = reorder l := by
  decide

/-- C2 fails on the code.  The corners of a square standing on a corner are
four distinct points, no three collinear, yet `reorder` returns the left
corner both as top-left and as bottom-left and drops the bottom corner: the
output is not a permutation of the input.  The same happens in whatever order
the four corners are listed. -/
theorem reorder_diamond_not_perm :
    diamond.length = 4 ∧ diamond.Nodup ∧ NoThreeCollinear diamond ∧
    reorder diamond = some [⟨0, 100⟩, ⟨100, 0⟩, ⟨200, 100⟩, ⟨0, 100⟩] ∧
    ¬ List.Perm [(⟨0, 100⟩ : Point), ⟨100, 0⟩, ⟨200, 100⟩, ⟨0, 100⟩] diamond ∧
    (⟨100, 200⟩ : Point) ∉ [(⟨0, 100⟩ : Point), ⟨100, 0⟩, ⟨200, 100⟩, ⟨0, 100⟩] ∧
    ∀ l : List Point, l.Perm diamond →
      ∀ out, reorder l = some out → ¬ out.Perm l := by
  refine ⟨by decide, by decide, by decide, by decide, by decide, by decide, ?_⟩
  intro l hl out hout hperm
  have hdup := reorder_diamond_orderings l (mem_orderings diamond l hl) out hout
  exact hdup ((hperm.trans hl).nodup_iff.mpr (by decide))

/-- C8 fails on the code.  The corners of a square standing on a corner are
four distinct points, no three collinear, and exchanging the first two
changes the result of `reorder`, with exact and with 32-bit keys alike; both
results repeat a corner. -/
theorem reorder_order_dependent :
    diamond.length = 4 ∧ diamond.Nodup ∧ NoThreeCollinear diamond ∧
    diamond.Perm diamondSwapped ∧
    reorder diamond = some [⟨0, 100⟩, ⟨100, 0⟩, ⟨200, 100⟩, ⟨0, 100⟩] ∧
    reorder diamondSwapped = some [⟨100, 0⟩, ⟨100, 0⟩, ⟨200, 100⟩, ⟨0, 100⟩] ∧
    reorder diamond ≠ reorder diamondSwapped ∧
    reorder32 diamond = some [⟨0, 100⟩, ⟨100, 0⟩, ⟨200, 100⟩, ⟨0, 100⟩] ∧
    reorder32 diamondSwapped = some [⟨100, 0⟩, ⟨100, 0⟩, ⟨200, 100⟩, ⟨0, 100⟩] := by
  decide

/-! ## Selection loop lemmas -/

theorem selectStep_cases (s : Selection) (c : Contour) :
    (selectStep s c = s ∧ (c.rawArea > 5000 → c.hullArea ≤ s.maxArea)) ∨
    (selectStep s c = ⟨c.rectPoints, c.hullArea⟩ ∧ c.rawArea > 5000 ∧
      s.maxArea < c.hullArea) := by
  unfold selectStep
  by_cases h1 : c.rawArea > 5000
  · by_cases h2 : c.hullArea > s.maxArea
    · right
      rw [if_pos h1, if_pos h2]
      exact ⟨rfl, h1, h2⟩
    · left
      rw [if_pos h1, if_neg h2]
      exact ⟨rfl, fun _ => not_lt.mp h2⟩
  · left
    rw [if_neg h1]
    exact ⟨rfl, fun h => absurd h h1⟩

theorem selectFrom_nil (s : Selection) : selectFrom s [] = s := rfl

theorem selectFrom_cons (s : Selection) (c : Contour) (cs : List Contour) :
    selectFrom s (c :: cs) = selectFrom (selectStep s c) cs := rfl

theorem selectFrom_append (s : Selection) (l1 l2 : List Contour) :
    selectFrom s (l1 ++ l2) = selectFrom (selectFrom s l1) l2 := by
  simp [selectFrom, List.foldl_append]

/-- Contours that do not beat the current `maxArea` leave the state alone. -/
theorem selectFrom_noop (cs : List Contour) :
    ∀ s : Selection, (∀ c ∈ cs, c.rawArea > 5000 → c.hullArea ≤ s.maxArea) →
      selectFrom s cs = s := by
  induction cs with
  | nil => intro s _; rfl
  | cons c cs ih =>
    intro s h
    rw [selectFrom_cons]
    rcases selectStep_cases s c with ⟨he, _⟩ | ⟨_, hf, hlt⟩
    · rw [he]
      exact ih s (fun d hd => h d (List.mem_cons_of_mem _ hd))
    · exact absurd (h c (List.mem_cons_self _ _) hf) (not_le.mpr hlt)

/-- Running-maximum invariant of the loop, from an arbitrary start state. -/
theorem selectFrom_spec (cs : List Contour) :
    ∀ s : Selection,
      s.maxArea ≤ (selectFrom s cs).maxArea ∧
      (∀ c ∈ cs, c.rawArea > 5000 → c.hullArea ≤ (selectFrom s cs).maxArea) ∧
      (selectFrom s cs = s ∨
        ∃ c ∈ cs, c.rawArea > 5000 ∧ s.maxArea < c.hullArea ∧
          selectFrom s cs = ⟨c.rectPoints, c.hullArea⟩) := by
  induction cs with
  | nil => intro s; simp [selectFrom_nil]
  | cons c cs ih =>
    intro s
    rw [selectFrom_cons]
    obtain ⟨hmono, hbound, hres⟩ := ih (selectStep s c)
    rcases selectStep_cases s c with ⟨he, hle⟩ | ⟨he, hf, hlt⟩
    · rw [he] at hmono hbound hres ⊢
      refine ⟨hmono, ?_, ?_⟩
      · intro d hd hfd
        rcases List.mem_cons.mp hd with rfl | hd
        · exact le_trans (hle hfd) hmono
        · exact hbound d hd hfd
      · rcases hres with h | ⟨d, hd, hfd, hlt, hr⟩
        · exact Or.inl h
        · exact Or.inr ⟨d, List.mem_cons_of_mem _ hd, hfd, hlt, hr⟩
    · rw [he] at hmono hbound hres ⊢
      simp only at hmono hres
      refine ⟨le_trans (le_of_lt hlt) hmono, ?_, Or.inr ?_⟩
      · intro d hd hfd
        rcases List.mem_cons.mp hd with rfl | hd
        · exact hmono
        · exact hbound d hd hfd
      · rcases hres with h | ⟨d, hd, hfd, hlt2, hr⟩
        · exact ⟨c, List.mem_cons_self _ _, hf, hlt, h⟩
        · exact ⟨d, List.mem_cons_of_mem _ hd, hfd, lt_trans hlt hlt2, hr⟩

/-- The invariant for the whole loop: the result is either the start state or
the rectangle and hull area of a filtered contour of positive hull area, and
`maxArea` bounds every filtered hull area. -/
theorem selectLoop_spec (cs : List Contour) :
    (∀ c ∈ cs, c.rawArea > 5000 → c.hullArea ≤ (selectLoop cs).maxArea) ∧
    (selectLoop cs = Selection.init ∨
      ∃ c ∈ cs, c.rawArea > 5000 ∧ 0 < c.hullArea ∧
        selectLoop cs = ⟨c.rectPoints, c.hullArea⟩) := by
  obtain ⟨_, hb, hr⟩ := selectFrom_spec cs Selection.init
  exact ⟨hb, hr⟩

/-! ## Selection loop: claims -/

/-- C3. After the selection loop `maxArea` is at least the hull area of every
contour whose raw area exceeds 5000; and when some such contour has positive
hull area, `maxArea` is the hull area of one of them (hence the largest) and
`biggest` holds the four rectangle corners of that contour. -/
theorem selectLoop_selects_largest (cs : List Contour) :
    (∀ c ∈ cs, c.rawArea > 5000 → c.hullArea ≤ (selectLoop cs).maxArea) ∧
    ((∃ c ∈ cs, c.rawArea > 5000 ∧ 0 < c.hullArea) →
      ∃ c ∈ cs, c.rawArea > 5000 ∧ (selectLoop cs).maxArea = c.hullArea ∧
        (selectLoop cs).biggest = c.rectPoints) := by
  obtain ⟨hb, hr⟩ := selectLoop_spec cs
  refine ⟨hb, ?_⟩
  rintro ⟨c, hc, hf, hpos⟩
  rcases hr with h | ⟨d, hd, hfd, _, h⟩
  · have := hb c hc hf
    rw [h] at this
    exact absurd this (not_le.mpr hpos)
  · exact ⟨d, hd, hfd, by rw [h], by rw [h]⟩

/-- With candidates of hull areas 6000 and 12000, in this order, the result
is the 12000 one. -/
theorem selectLoop_selects_largest_witness :
    ∃ c ∈ [contour6000, contour12000], c.rawArea > 5000 ∧
      (selectLoop [contour6000, contour12000]).maxArea = c.hullArea ∧
      (selectLoop [contour6000, contour12000]).biggest = c.rectPoints :=
  (selectLoop_selects_largest [contour6000, contour12000]).2
    ⟨contour12000, by simp, by norm_num [contour12000], by norm_num [contour12000]⟩

/-- C4. When every contour has hull area at least its raw area, the loop ends
with `biggest` empty, and the "No document found" branch is taken, exactly
when no contour has raw area above 5000; otherwise `biggest` holds exactly
four points and the rectification branch is taken, with `reorder` applied to
`biggest`. -/
theorem selectLoop_empty_iff (cs : List Contour)
    (hh : ∀ c ∈ cs, c.rawArea ≤ c.hullArea) :
    ((selectLoop cs).biggest = [] ↔ ∀ c ∈ cs, ¬ c.rawArea > 5000) ∧
    (afterSelection (selectLoop cs) = Outcome.noDocumentFound ↔
      ∀ c ∈ cs, ¬ c.rawArea > 5000) ∧
    ((∃ c ∈ cs, c.rawArea > 5000) →
      (selectLoop cs).biggest.length = 4 ∧
      afterSelection (selectLoop cs) =
        Outcome.rectified (reorder (selectLoop cs).biggest)) := by
  obtain ⟨hb, hr⟩ := selectLoop_spec cs
  have key : (selectLoop cs).biggest = [] ↔ ∀ c ∈ cs, ¬ c.rawArea > 5000 := by
    constructor
    · intro he c hc hf
      rcases hr with h | ⟨d, _, _, _, h⟩
      · have h1 := hb c hc hf
        rw [h] at h1
        have h2 := hh c hc
        have h3 : (5000 : ℚ) < 0 := lt_of_lt_of_le hf (le_trans h2 h1)
        norm_num at h3
      · rw [h] at he
        simp [Contour.rectPoints] at he
    · intro hn
      have : selectLoop cs = Selection.init :=
        selectFrom_noop cs Selection.init (fun c hc hf => absurd hf (hn c hc))
      rw [this]; rfl
  have hlen : (∃ c ∈ cs, c.rawArea > 5000) → (selectLoop cs).biggest.length = 4 := by
    rintro ⟨c, hc, hf⟩
    rcases hr with h | ⟨d, _, _, _, h⟩
    · have he : (selectLoop cs).biggest = [] := by rw [h]; rfl
      exact absurd hf (key.mp he c hc)
    · rw [h]; rfl
  refine ⟨key, ?_, ?_⟩
  · rw [← key]
    unfold afterSelection
    cases hbig : (selectLoop cs).biggest with
    | nil => simp
    | cons a l => simp
  · intro hex
    have h4 := hlen hex
    refine ⟨h4, ?_⟩
    unfold afterSelection
    cases hbig : (selectLoop cs).biggest with
    | nil => rw [hbig] at h4; simp at h4
    | cons a l => simp

theorem selectLoop_empty_iff_witness :
    (∀ c ∈ [contour6000, contour12000], c.rawArea ≤ c.hullArea) ∧
    (selectLoop [contour6000, contour12000]).biggest ≠ [] ∧
    (selectLoop [contour6000, contour12000]).biggest.length = 4 ∧
    afterSelection (selectLoop [contour6000, contour12000]) =
      Outcome.rectified (reorder (selectLoop [contour6000, contour12000]).biggest) :=
  have hh : ∀ c ∈ [contour6000, contour12000], c.rawArea ≤ c.hullArea := by
    intro c hc
    simp only [List.mem_cons, List.mem_singleton, List.not_mem_nil, or_false] at hc
    rcases hc with rfl | rfl <;> norm_num [contour6000, contour12000]
  have hex : ∃ c ∈ [contour6000, contour12000], c.rawArea > 5000 :=
    ⟨contour6000, by simp, by norm_num [contour6000]⟩
  have h := selectLoop_empty_iff [contour6000, contour12000] hh
  ⟨hh, fun he => absurd (by norm_num [contour6000] : contour6000.rawArea > 5000)
      (h.1.mp he contour6000 (by simp)),
    (h.2.2 hex).1, (h.2.2 hex).2⟩

/-- C5. A contour whose raw area is 5000 or less is excluded by the filter:
inserting it at any position of the contour list (equivalently, removing it)
leaves the final `biggest` and `maxArea` unchanged, whatever its hull area. -/
theorem selectLoop_ignores_small (l1 l2 : List Contour) (c : Contour)
    (hc : c.rawArea ≤ 5000) :
    selectLoop (l1 ++ c :: l2) = selectLoop (l1 ++ l2) := by
  unfold selectLoop
  rw [selectFrom_append, selectFrom_append, selectFrom_cons]
  have : selectStep (selectFrom Selection.init l1) c = selectFrom Selection.init l1 := by
    unfold selectStep
    rw [if_neg (not_lt.mpr hc)]
  rw [this]

theorem selectLoop_ignores_small_witness :
    selectLoop ([contour6000] ++ contour5000 :: [contour12000]) =
      selectLoop ([contour6000] ++ [contour12000]) :=
  selectLoop_ignores_small [contour6000] [contour12000] contour5000
    (by norm_num [contour5000])

/-- C6. Ties are first-wins.  If `c` has raw area above 5000 and positive hull
area, every filtered contour before it has strictly smaller hull area and
every filtered contour after it has hull area at most that of `c`, then the
loop ends with the rectangle of `c`; and an iteration on a contour whose hull
area equals the current `maxArea` leaves the state as it is. -/
theorem selectLoop_first_wins (l1 l2 : List Contour) (c : Contour)
    (hf : c.rawArea > 5000) (hpos : 0 < c.hullArea)
    (hbefore : ∀ d ∈ l1, d.rawArea > 5000 → d.hullArea < c.hullArea)
    (hafter : ∀ d ∈ l2, d.rawArea > 5000 → d.hullArea ≤ c.hullArea) :
    selectLoop (l1 ++ c :: l2) = ⟨c.rectPoints, c.hullArea⟩ ∧
    ∀ (s : Selection) (d : Contour), d.hullArea = s.maxArea → selectStep s d = s := by
  constructor
  · unfold selectLoop
    rw [selectFrom_append, selectFrom_cons]
    have hlt : (selectFrom Selection.init l1).maxArea < c.hullArea := by
      obtain ⟨_, _, hr⟩ := selectFrom_spec l1 Selection.init
      rcases hr with h | ⟨d, hd, hfd, _, h⟩
      · rw [h]; exact hpos
      · rw [h]; exact hbefore d hd hfd
    have hstep : selectStep (selectFrom Selection.init l1) c = ⟨c.rectPoints, c.hullArea⟩ := by
      unfold selectStep
      rw [if_pos hf, if_pos hlt]
    rw [hstep]
    exact selectFrom_noop l2 _ hafter
  · intro s d hd
    unfold selectStep
    rw [hd]
    simp

theorem selectLoop_first_wins_witness :
    selectLoop ([contour6000] ++ contour12000 :: [contour12000b]) =
      ⟨contour12000.rectPoints, contour12000.hullArea⟩ ∧
    ∀ (s : Selection) (d : Contour), d.hullArea = s.maxArea → selectStep s d = s :=
  selectLoop_first_wins [contour6000] [contour12000b] contour12000
    (by norm_num [contour12000]) (by norm_num [contour12000])
    (by intro d hd; simp at hd; subst hd; norm_num [contour6000, contour12000])
    (by intro d hd; simp at hd; subst hd; norm_num [contour12000b, contour12000])

/-- C7, as stated, fails: two contours that tie on the largest hull area and
have different rectangles give a different `biggest` in the two orders. -/
theorem selectLoop_order_dependent :
    [contour12000, contour12000b].Perm [contour12000b, contour12000] ∧
    (selectLoop [contour12000, contour12000b]).biggest = contour12000.rectPoints ∧
    (selectLoop [contour12000b, contour12000]).biggest = contour12000b.rectPoints ∧
    selectLoop [contour12000, contour12000b] ≠ selectLoop [contour12000b, contour12000] := by
  refine ⟨List.Perm.swap _ _ _, ?_, ?_, ?_⟩ <;>
    simp [selectLoop, selectFrom, selectStep, Selection.init, contour12000, contour12000b,
      Contour.rectPoints] <;> norm_num

/-- C7, amended.  For every list of contours and every permutation of it the
loop ends with the same `maxArea`; and when all contours that pass the filter
and attain the largest hull area have the same rectangle corners, it also
ends with the same `biggest`. -/
theorem selectLoop_perm (l1 l2 : List Contour) (hp : l1.Perm l2) :
    (selectLoop l1).maxArea = (selectLoop l2).maxArea ∧
    ((∀ c ∈ l1, ∀ d ∈ l1, c.rawArea > 5000 → d.rawArea > 5000 →
        (∀ e ∈ l1, e.rawArea > 5000 → e.hullArea ≤ c.hullArea) →
        c.hullArea = d.hullArea → c.rectPoints = d.rectPoints) →
      selectLoop l1 = selectLoop l2) := by
  obtain ⟨hb1, hr1⟩ := selectLoop_spec l1
  obtain ⟨hb2, hr2⟩ := selectLoop_spec l2
  rcases hr1 with h1 | ⟨c, hc, hfc, hposc, h1⟩
  · rcases hr2 with h2 | ⟨d, hd, hfd, hposd, h2⟩
    · rw [h1, h2]; exact ⟨rfl, fun _ => rfl⟩
    · have := hb1 d (hp.mem_iff.mpr hd) hfd
      rw [h1] at this
      exact absurd this (not_le.mpr hposd)
  · rcases hr2 with h2 | ⟨d, hd, hfd, hposd, h2⟩
    · have := hb2 c (hp.mem_iff.mp hc) hfc
      rw [h2] at this
      exact absurd this (not_le.mpr hposc)
    · have hd1 : d ∈ l1 := hp.mem_iff.mpr hd
      have hle1 : d.hullArea ≤ c.hullArea := by
        have := hb1 d hd1 hfd
        rw [h1] at this; exact this
      have hle2 : c.hullArea ≤ d.hullArea := by
        have := hb2 c (hp.mem_iff.mp hc) hfc
        rw [h2] at this; exact this
      have heq : c.hullArea = d.hullArea := le_antisymm hle2 hle1
      refine ⟨by rw [h1, h2]; exact heq, ?_⟩
      intro huniq
      have hmax : ∀ e ∈ l1, e.rawArea > 5000 → e.hullArea ≤ c.hullArea := by
        intro e he hfe
        have := hb1 e he hfe
        rw [h1] at this; exact this
      rw [h1, h2, huniq c hc d hd1 hfc hfd hmax heq, heq]

theorem selectLoop_perm_witness :
    [contour6000, contour12000].Perm [contour12000, contour6000] ∧
    (selectLoop [contour6000, contour12000]).maxArea =
      (selectLoop [contour12000, contour6000]).maxArea ∧
    selectLoop [contour6000, contour12000] = selectLoop [contour12000, contour6000] :=
  ⟨List.Perm.swap _ _ _,
    (selectLoop_perm [contour6000, contour12000] [contour12000, contour6000]
      (List.Perm.swap _ _ _)).1,
    (selectLoop_perm [contour6000, contour12000] [contour12000, contour6000]
      (List.Perm.swap _ _ _)).2 (by
        intro c hc d hd _ _ _ he
        simp only [List.mem_cons, List.mem_singleton, List.not_mem_nil, or_false] at hc hd
        rcases hc with rfl | rfl <;> rcases hd with rfl | rfl <;>
          first
          | rfl
          | (exfalso; norm_num [contour6000, contour12000] at he))⟩

/-! ## `reorder` when the extrema are attained once -/

/-- When four points of the input are the strict extrema of their keys,
`reorder` returns exactly those four. -/
theorem reorder_of_strict (l : List Point) (tl tr br bl : Point)
    (h0 : tl ∈ l) (h1 : tr ∈ l) (h2 : br ∈ l) (h3 : bl ∈ l)
    (s0 : ∀ q ∈ l, q ≠ tl → tl.x + tl.y < q.x + q.y)
    (s2 : ∀ q ∈ l, q ≠ br → q.x + q.y < br.x + br.y)
    (s1 : ∀ q ∈ l, q ≠ tr → tr.y - tr.x < q.y - q.x)
    (s3 : ∀ q ∈ l, q ≠ bl → q.y - q.x < bl.y - bl.x) :
    reorder l = some [tl, tr, br, bl] := by
  obtain ⟨a, b, c, d, hr, ⟨ma, mb, mc, md⟩, hb⟩ := reorder_spec l (List.ne_nil_of_mem h0)
  simp only [Point.sum, Point.diff] at hb
  have e0 : a = tl := by
    by_contra hne
    have := s0 a ma hne
    have := (hb tl h0).1
    omega
  have e2 : c = br := by
    by_contra hne
    have := s2 c mc hne
    have := (hb br h2).2.1
    omega
  have e1 : b = tr := by
    by_contra hne
    have := s1 b mb hne
    have := (hb tr h1).2.2.1
    omega
  have e3 : d = bl := by
    by_contra hne
    have := s3 d md hne
    have := (hb bl h3).2.2.2
    omega
  rw [hr, e0, e1, e2, e3]

/-! ## Perspective round trip -/

/-- A projective transform sends a source point to one destination only. -/
theorem Homography.maps_unique (H : Homography) (p : Point) (u v u2 v2 : ℚ)
    (h1 : H.maps p u v) (h2 : H.maps p u2 v2) : u = u2 ∧ v = v2 := by
  obtain ⟨hw, hu, hv⟩ := h1
  obtain ⟨_, hu2, hv2⟩ := h2
  rw [hu] at hu2
  rw [hv] at hv2
  exact ⟨mul_right_cancel₀ hw hu2, mul_right_cancel₀ hw hv2⟩

/-- A source list that some transform sends to the four destination corners
has four pairwise distinct points. -/
theorem Homography.roundTrip_nodup (H : Homography) (src : List Point)
    (h : H.roundTrip src) : src.Nodup := by
  unfold Homography.roundTrip dstCorners at h
  cases h with
  | cons h0 h =>
    cases h with
    | cons h1 h =>
      cases h with
      | cons h2 h =>
        cases h with
        | cons h3 h =>
          cases h
          rename_i p0 p1 p2 p3
          have n01 : p0 ≠ p1 := by
            rintro rfl
            have := (H.maps_unique _ _ _ _ _ h0 h1).1
            norm_num at this
          have n02 : p0 ≠ p2 := by
            rintro rfl
            have := (H.maps_unique _ _ _ _ _ h0 h2).1
            norm_num at this
          have n03 : p0 ≠ p3 := by
            rintro rfl
            have := (H.maps_unique _ _ _ _ _ h0 h3).2
            norm_num at this
          have n12 : p1 ≠ p2 := by
            rintro rfl
            have := (H.maps_unique _ _ _ _ _ h1 h2).2
            norm_num at this
          have n13 : p1 ≠ p3 := by
            rintro rfl
            have := (H.maps_unique _ _ _ _ _ h1 h3).1
            norm_num at this
          have n23 : p2 ≠ p3 := by
            rintro rfl
            have := (H.maps_unique _ _ _ _ _ h2 h3).1
            norm_num at this
          simp [n01, n02, n03, n12, n13, n23]

/-- C9 fails on the code.  For the contour `diamondContour` the loop selects
the four corners of the square, the rectification branch is taken, and
`reorder` hands `getPerspectiveTransform` a source list whose first and last
entries are the same point; no projective transform sends that list to the
four destination corners.  The same holds in whatever order the corners of
the square are listed. -/
theorem no_transform_for_diamond :
    afterSelection (selectLoop [diamondContour]) =
      Outcome.rectified (some [⟨0, 100⟩, ⟨100, 0⟩, ⟨200, 100⟩, ⟨0, 100⟩]) ∧
    (¬ ∃ H : Homography,
      H.roundTrip [⟨0, 100⟩, ⟨100, 0⟩, ⟨200, 100⟩, ⟨0, 100⟩]) ∧
    ∀ l : List Point, l.Perm diamond →
      ∀ src, reorder l = some src → ¬ ∃ H : Homography, H.roundTrip src := by
  refine ⟨?_, ?_, ?_⟩
  · have h : selectLoop [diamondContour] = ⟨diamond, 20000⟩ := by
      simp [selectLoop, selectFrom, selectStep, Selection.init, diamondContour,
        Contour.rectPoints, diamond]
      norm_num
    rw [h]
    decide
  · rintro ⟨H, hH⟩
    exact absurd (H.roundTrip_nodup _ hH) (by decide)
  · rintro l hl src hsrc ⟨H, hH⟩
    exact reorder_diamond_orderings l (mem_orderings diamond l hl) src hsrc
      (H.roundTrip_nodup _ hH)

/-! ## `reorder` on rectangles -/

theorem point_ne_of_sum_lt {p q : Point} (h : p.x + p.y < q.x + q.y) : p ≠ q := by
  intro e; rw [e] at h; exact lt_irrefl _ h

theorem point_ne_of_diff_lt {p q : Point} (h : p.y - p.x < q.y - q.x) : p ≠ q := by
  intro e; rw [e] at h; exact lt_irrefl _ h

/-- Four labelled points with strictly ordered keys: `p0` has the least and
`p2` the greatest `x + y`, `p1` the least and `p3` the greatest `y - x`.  Then
`reorder` of any list made of exactly these points returns them in this
order, they are pairwise distinct, and each extremum is attained once. -/
theorem reorder_labelled (l : List Point) (p0 p1 p2 p3 : Point)
    (hlen : l.length = 4)
    (hmem : ∀ q, q ∈ l ↔ q = p0 ∨ q = p1 ∨ q = p2 ∨ q = p3)
    (s01 : p0.x + p0.y < p1.x + p1.y) (s03 : p0.x + p0.y < p3.x + p3.y)
    (s12 : p1.x + p1.y < p2.x + p2.y) (s32 : p3.x + p3.y < p2.x + p2.y)
    (d10 : p1.y - p1.x < p0.y - p0.x) (d12 : p1.y - p1.x < p2.y - p2.x)
    (d03 : p0.y - p0.x < p3.y - p3.x) (d23 : p2.y - p2.x < p3.y - p3.x) :
    reorder l = some [p0, p1, p2, p3] ∧ [p0, p1, p2, p3].Nodup ∧
    [p0, p1, p2, p3].Perm l ∧
    (∀ q ∈ l, q ≠ p0 → p0.x + p0.y < q.x + q.y) ∧
    (∀ q ∈ l, q ≠ p2 → q.x + q.y < p2.x + p2.y) ∧
    (∀ q ∈ l, q ≠ p1 → p1.y - p1.x < q.y - q.x) ∧
    (∀ q ∈ l, q ≠ p3 → q.y - q.x < p3.y - p3.x) := by
  have t0 : ∀ q ∈ l, q ≠ p0 → p0.x + p0.y < q.x + q.y := by
    intro q hq hne
    rcases (hmem q).mp hq with rfl | rfl | rfl | rfl
    · exact absurd rfl hne
    · exact s01
    · omega
    · exact s03
  have t2 : ∀ q ∈ l, q ≠ p2 → q.x + q.y < p2.x + p2.y := by
    intro q hq hne
    rcases (hmem q).mp hq with rfl | rfl | rfl | rfl
    · omega
    · exact s12
    · exact absurd rfl hne
    · exact s32
  have t1 : ∀ q ∈ l, q ≠ p1 → p1.y - p1.x < q.y - q.x := by
    intro q hq hne
    rcases (hmem q).mp hq with rfl | rfl | rfl | rfl
    · exact d10
    · exact absurd rfl hne
    · exact d12
    · omega
  have t3 : ∀ q ∈ l, q ≠ p3 → q.y - q.x < p3.y - p3.x := by
    intro q hq hne
    rcases (hmem q).mp hq with rfl | rfl | rfl | rfl
    · exact d03
    · omega
    · exact d23
    · exact absurd rfl hne
  have m0 : p0 ∈ l := (hmem p0).mpr (Or.inl rfl)
  have m1 : p1 ∈ l := (hmem p1).mpr (Or.inr (Or.inl rfl))
  have m2 : p2 ∈ l := (hmem p2).mpr (Or.inr (Or.inr (Or.inl rfl)))
  have m3 : p3 ∈ l := (hmem p3).mpr (Or.inr (Or.inr (Or.inr rfl)))
  have hnd : [p0, p1, p2, p3].Nodup := by
    have n01 : p0 ≠ p1 := point_ne_of_sum_lt s01
    have n02 : p0 ≠ p2 := point_ne_of_sum_lt (lt_trans s01 s12)
    have n03 : p0 ≠ p3 := point_ne_of_sum_lt s03
    have n12 : p1 ≠ p2 := point_ne_of_sum_lt s12
    have n13 : p1 ≠ p3 := point_ne_of_diff_lt (lt_trans d10 d03)
    have n23 : p2 ≠ p3 := point_ne_of_diff_lt d23
    simp [n01, n02, n03, n12, n13, n23]
  have hsub : [p0, p1, p2, p3] ⊆ l := by
    intro q hq
    simp at hq
    exact (hmem q).mpr hq
  have hperm : [p0, p1, p2, p3].Perm l :=
    (hnd.subperm hsub).perm_of_length_le (by rw [hlen]; simp)
  exact ⟨reorder_of_strict l p0 p1 p2 p3 m0 m1 m2 m3 t0 t2 t1 t3, hnd, hperm, t0, t2, t1, t3⟩

/-- Packaging of `reorder_labelled` for a labelling `p0 p1 p2 p3` of the
corners `a b c d` in which `p0, p2` and `p1, p3` are the two diagonals. -/
theorem rectangle_arrangement (l : List Point) (a b c d p0 p1 p2 p3 : Point)
    (hlen : l.length = 4)
    (hmem : ∀ q, q ∈ l ↔ q = a ∨ q = b ∨ q = c ∨ q = d)
    (hdiag : (((p0 = a ∧ p2 = c) ∨ (p0 = c ∧ p2 = a)) ∧
        ((p1 = b ∧ p3 = d) ∨ (p1 = d ∧ p3 = b))) ∨
      (((p0 = b ∧ p2 = d) ∨ (p0 = d ∧ p2 = b)) ∧
        ((p1 = a ∧ p3 = c) ∨ (p1 = c ∧ p3 = a))))
    (s01 : p0.x + p0.y < p1.x + p1.y) (s03 : p0.x + p0.y < p3.x + p3.y)
    (s12 : p1.x + p1.y < p2.x + p2.y) (s32 : p3.x + p3.y < p2.x + p2.y)
    (d10 : p1.y - p1.x < p0.y - p0.x) (d12 : p1.y - p1.x < p2.y - p2.x)
    (d03 : p0.y - p0.x < p3.y - p3.x) (d23 : p2.y - p2.x < p3.y - p3.x) :
    ∃ tl tr br bl, reorder l = some [tl, tr, br, bl] ∧
      [tl, tr, br, bl].Nodup ∧ [tl, tr, br, bl].Perm l ∧
      ((((tl = a ∧ br = c) ∨ (tl = c ∧ br = a)) ∧
          ((tr = b ∧ bl = d) ∨ (tr = d ∧ bl = b))) ∨
        (((tl = b ∧ br = d) ∨ (tl = d ∧ br = b)) ∧
          ((tr = a ∧ bl = c) ∨ (tr = c ∧ bl = a)))) ∧
      (∀ q ∈ l, q ≠ tl → tl.x + tl.y < q.x + q.y) ∧
      (∀ q ∈ l, q ≠ br → q.x + q.y < br.x + br.y) ∧
      (∀ q ∈ l, q ≠ tr → tr.y - tr.x < q.y - q.x) ∧
      (∀ q ∈ l, q ≠ bl → q.y - q.x < bl.y - bl.x) := by
  have hmem2 : ∀ q, q ∈ l ↔ q = p0 ∨ q = p1 ∨ q = p2 ∨ q = p3 := by
    intro q
    rw [hmem q]
    rcases hdiag with ⟨⟨rfl, rfl⟩ | ⟨rfl, rfl⟩, ⟨rfl, rfl⟩ | ⟨rfl, rfl⟩⟩ |
        ⟨⟨rfl, rfl⟩ | ⟨rfl, rfl⟩, ⟨rfl, rfl⟩ | ⟨rfl, rfl⟩⟩ <;>
      clear hmem s01 s03 s12 s32 d10 d12 d03 d23 <;> constructor <;> intro h <;>
      rcases h with h | h | h | h <;> simp [h]
  obtain ⟨hA, hB, hC, hT⟩ :=
    reorder_labelled l p0 p1 p2 p3 hlen hmem2 s01 s03 s12 s32 d10 d12 d03 d23
  exact ⟨p0, p1, p2, p3, hA, hB, hC, hdiag, hT⟩

/-- The rectangle property of `reorder` with exact keys: for the four corners
`a b c d` of a non-degenerate rectangle none of whose sides is parallel to
`(1, 1)` or `(1, -1)`, listed in any order, the output is a permutation of
the input without repetition, `TL` and `BR` are one pair of opposite corners
and `TR` and `BL` the other, and each extremum is attained once. -/
theorem reorder_rectangle (a b c d : Point) (l : List Point)
    (hl : l.Perm [a, b, c, d]) (hrect : IsRectangle a b c d)
    (hside : NoDiagonalSide a b c d) :
    ∃ tl tr br bl, reorder l = some [tl, tr, br, bl] ∧
      [tl, tr, br, bl].Nodup ∧ [tl, tr, br, bl].Perm l ∧
      ((((tl = a ∧ br = c) ∨ (tl = c ∧ br = a)) ∧
          ((tr = b ∧ bl = d) ∨ (tr = d ∧ bl = b))) ∨
        (((tl = b ∧ br = d) ∨ (tl = d ∧ br = b)) ∧
          ((tr = a ∧ bl = c) ∨ (tr = c ∧ bl = a)))) ∧
      (∀ q ∈ l, q ≠ tl → tl.x + tl.y < q.x + q.y) ∧
      (∀ q ∈ l, q ≠ br → q.x + q.y < br.x + br.y) ∧
      (∀ q ∈ l, q ≠ tr → tr.y - tr.x < q.y - q.x) ∧
      (∀ q ∈ l, q ≠ bl → q.y - q.x < bl.y - bl.x) := by
  have hlen : l.length = 4 := by rw [hl.length_eq]; rfl
  have hmem : ∀ q, q ∈ l ↔ q = a ∨ q = b ∨ q = c ∨ q = d := by
    intro q; rw [hl.mem_iff]; simp
  obtain ⟨hpx, hpy, hdiag, _, _, _, _⟩ := hrect
  obtain ⟨⟨hab1, hab2⟩, _, _, ⟨hda1, hda2⟩⟩ := hside
  simp only [parallelTo] at hab1 hab2 hda1 hda2
  have hcx : c.x = b.x + d.x - a.x := by omega
  have hcy : c.y = b.y + d.y - a.y := by omega
  rw [hcx, hcy] at hdiag
  have hsu : (b.x + b.y) - (a.x + a.y) ≠ 0 := by omega
  have hdu : (b.y - b.x) - (a.y - a.x) ≠ 0 := by omega
  have hsv : (d.x + d.y) - (a.x + a.y) ≠ 0 := by omega
  have hdv : (d.y - d.x) - (a.y - a.x) ≠ 0 := by omega
  have key : ((b.x + b.y) - (a.x + a.y)) * ((d.x + d.y) - (a.x + a.y)) +
      ((b.y - b.x) - (a.y - a.x)) * ((d.y - d.x) - (a.y - a.x)) = 0 := by
    have h2 : 2 * (((b.x + b.y) - (a.x + a.y)) * ((d.x + d.y) - (a.x + a.y)) +
        ((b.y - b.x) - (a.y - a.x)) * ((d.y - d.x) - (a.y - a.x))) = 0 := by
      linear_combination hdiag
    linarith
  have hcases :
      ((0 < (b.x + b.y) - (a.x + a.y) ∧ 0 < (d.x + d.y) - (a.x + a.y)) ∨
        ((b.x + b.y) - (a.x + a.y) < 0 ∧ (d.x + d.y) - (a.x + a.y) < 0)) ∧
      ((0 < (b.y - b.x) - (a.y - a.x) ∧ (d.y - d.x) - (a.y - a.x) < 0) ∨
        ((b.y - b.x) - (a.y - a.x) < 0 ∧ 0 < (d.y - d.x) - (a.y - a.x))) ∨
      ((0 < (b.x + b.y) - (a.x + a.y) ∧ (d.x + d.y) - (a.x + a.y) < 0) ∨
        ((b.x + b.y) - (a.x + a.y) < 0 ∧ 0 < (d.x + d.y) - (a.x + a.y))) ∧
      ((0 < (b.y - b.x) - (a.y - a.x) ∧ 0 < (d.y - d.x) - (a.y - a.x)) ∨
        ((b.y - b.x) - (a.y - a.x) < 0 ∧ (d.y - d.x) - (a.y - a.x) < 0)) := by
    rcases lt_or_gt_of_ne (mul_ne_zero hsu hsv) with hneg | hpos
    · right
      have hpos2 : 0 < ((b.y - b.x) - (a.y - a.x)) * ((d.y - d.x) - (a.y - a.x)) := by
        linarith
      exact ⟨mul_neg_iff.mp hneg, pos_and_pos_or_neg_and_neg_of_mul_pos hpos2⟩
    · left
      have hneg2 : ((b.y - b.x) - (a.y - a.x)) * ((d.y - d.x) - (a.y - a.x)) < 0 := by
        linarith
      exact ⟨pos_and_pos_or_neg_and_neg_of_mul_pos hpos, mul_neg_iff.mp hneg2⟩
  clear key hdiag hab1 hab2 hda1 hda2 hsu hsv hdu hdv
  rcases hcases with ⟨⟨h1, h2⟩ | ⟨h1, h2⟩, ⟨h3, h4⟩ | ⟨h3, h4⟩⟩ |
      ⟨⟨h1, h2⟩ | ⟨h1, h2⟩, ⟨h3, h4⟩ | ⟨h3, h4⟩⟩
  · exact rectangle_arrangement l a b c d a d c b hlen hmem
      (by simp) (by omega) (by omega) (by omega) (by omega) (by omega) (by omega) (by omega)
      (by omega)
  · exact rectangle_arrangement l a b c d a b c d hlen hmem
      (by simp) (by omega) (by omega) (by omega) (by omega) (by omega) (by omega) (by omega)
      (by omega)
  · exact rectangle_arrangement l a b c d c d a b hlen hmem
      (by simp) (by omega) (by omega) (by omega) (by omega) (by omega) (by omega) (by omega)
      (by omega)
  · exact rectangle_arrangement l a b c d c b a d hlen hmem
      (by simp) (by omega) (by omega) (by omega) (by omega) (by omega) (by omega) (by omega)
      (by omega)
  · exact rectangle_arrangement l a b c d d a b c hlen hmem
      (by simp) (by omega) (by omega) (by omega) (by omega) (by omega) (by omega) (by omega)
      (by omega)
  · exact rectangle_arrangement l a b c d d c b a hlen hmem
      (by simp) (by omega) (by omega) (by omega) (by omega) (by omega) (by omega) (by omega)
      (by omega)
  · exact rectangle_arrangement l a b c d b a d c hlen hmem
      (by simp) (by omega) (by omega) (by omega) (by omega) (by omega) (by omega) (by omega)
      (by omega)
  · exact rectangle_arrangement l a b c d b c d a hlen hmem
      (by simp) (by omega) (by omega) (by omega) (by omega) (by omega) (by omega) (by omega)
      (by omega)

/-- C10, as stated, fails: the corners of the axis-parallel square of side
`2^30` are `int` points forming a non-degenerate rectangle with no side
parallel to `(1, 1)` or `(1, -1)`, but `x + y` overflows at the corner
`(2^30, 2^30)` and `reorder32` returns the corner `(2^30, 0)` twice. -/
theorem reorder32_bigSquare_repeats :
    (∀ q ∈ bigSquare, q.IsInt32) ∧
    bigSquare.Perm [⟨0, 0⟩, ⟨1073741824, 0⟩, ⟨1073741824, 1073741824⟩, ⟨0, 1073741824⟩] ∧
    IsRectangle ⟨0, 0⟩ ⟨1073741824, 0⟩ ⟨1073741824, 1073741824⟩ ⟨0, 1073741824⟩ ∧
    NoDiagonalSide ⟨0, 0⟩ ⟨1073741824, 0⟩ ⟨1073741824, 1073741824⟩ ⟨0, 1073741824⟩ ∧
    reorder32 bigSquare = some [⟨1073741824, 1073741824⟩, ⟨1073741824, 0⟩,
      ⟨1073741824, 0⟩, ⟨0, 1073741824⟩] ∧
    ¬ [(⟨1073741824, 1073741824⟩ : Point), ⟨1073741824, 0⟩,
      ⟨1073741824, 0⟩, ⟨0, 1073741824⟩].Nodup ∧
    ¬ [(⟨1073741824, 1073741824⟩ : Point), ⟨1073741824, 0⟩,
      ⟨1073741824, 0⟩, ⟨0, 1073741824⟩].Perm bigSquare := by
  decide

/-- C10, amended.  For the four corners `a b c d` of a non-degenerate
rectangle none of whose sides is parallel to `(1, 1)` or `(1, -1)`, listed in
any order, and such that `x + y` and `y - x` of every corner fit a 32-bit
`int`, `reorder32` returns four pairwise distinct points forming a
permutation of the input; `TL` and `BR` are one pair of opposite corners and
`TR` and `BL` the other; and each of the four extrema (least and greatest
`x + y`, least and greatest `y - x`) is attained by exactly one corner. -/
theorem reorder32_rectangle (a b c d : Point) (l : List Point)
    (hl : l.Perm [a, b, c, d]) (hrect : IsRectangle a b c d)
    (hside : NoDiagonalSide a b c d) (hno : ∀ q ∈ l, q.NoOverflow) :
    ∃ tl tr br bl, reorder32 l = some [tl, tr, br, bl] ∧
      [tl, tr, br, bl].Nodup ∧ [tl, tr, br, bl].Perm l ∧
      ((((tl = a ∧ br = c) ∨ (tl = c ∧ br = a)) ∧
          ((tr = b ∧ bl = d) ∨ (tr = d ∧ bl = b))) ∨
        (((tl = b ∧ br = d) ∨ (tl = d ∧ br = b)) ∧
          ((tr = a ∧ bl = c) ∨ (tr = c ∧ bl = a)))) ∧
      (∀ q ∈ l, q ≠ tl → tl.x + tl.y < q.x + q.y) ∧
      (∀ q ∈ l, q ≠ br → q.x + q.y < br.x + br.y) ∧
      (∀ q ∈ l, q ≠ tr → tr.y - tr.x < q.y - q.x) ∧
      (∀ q ∈ l, q ≠ bl → q.y - q.x < bl.y - bl.x) := by
  rw [reorder32_eq_reorder l hno]
  exact reorder_rectangle a b c d l hl hrect hside

theorem reorder32_rectangle_witness :
    ∃ tl tr br bl,
      reorder32 [⟨300, 700⟩, ⟨200, 0⟩, ⟨0, 600⟩, ⟨500, 100⟩] = some [tl, tr, br, bl] ∧
      [tl, tr, br, bl].Nodup ∧
      [tl, tr, br, bl].Perm [⟨300, 700⟩, ⟨200, 0⟩, ⟨0, 600⟩, ⟨500, 100⟩] ∧
      ((((tl = ⟨200, 0⟩ ∧ br = ⟨300, 700⟩) ∨ (tl = ⟨300, 700⟩ ∧ br = ⟨200, 0⟩)) ∧
          ((tr = ⟨500, 100⟩ ∧ bl = ⟨0, 600⟩) ∨ (tr = ⟨0, 600⟩ ∧ bl = ⟨500, 100⟩))) ∨
        (((tl = ⟨500, 100⟩ ∧ br = ⟨0, 600⟩) ∨ (tl = ⟨0, 600⟩ ∧ br = ⟨500, 100⟩)) ∧
          ((tr = ⟨200, 0⟩ ∧ bl = ⟨300, 700⟩) ∨ (tr = ⟨300, 700⟩ ∧ bl = ⟨200, 0⟩)))) ∧
      (∀ q ∈ [(⟨300, 700⟩ : Point), ⟨200, 0⟩, ⟨0, 600⟩, ⟨500, 100⟩],
        q ≠ tl → tl.x + tl.y < q.x + q.y) ∧
      (∀ q ∈ [(⟨300, 700⟩ : Point), ⟨200, 0⟩, ⟨0, 600⟩, ⟨500, 100⟩],
        q ≠ br → q.x + q.y < br.x + br.y) ∧
      (∀ q ∈ [(⟨300, 700⟩ : Point), ⟨200, 0⟩, ⟨0, 600⟩, ⟨500, 100⟩],
        q ≠ tr → tr.y - tr.x < q.y - q.x) ∧
      (∀ q ∈ [(⟨300, 700⟩ : Point), ⟨200, 0⟩, ⟨0, 600⟩, ⟨500, 100⟩],
        q ≠ bl → q.y - q.x < bl.y - bl.x) :=
  reorder32_rectangle ⟨200, 0⟩ ⟨500, 100⟩ ⟨300, 700⟩ ⟨0, 600⟩
    [⟨300, 700⟩, ⟨200, 0⟩, ⟨0, 600⟩, ⟨500, 100⟩] (by decide) (by decide) (by decide)
    (by decide)

end DocScanner
